import Mathlib

/-!
Verification of the text-search and highlight engine of `src/app.py`
(AI Patent Analyzer).  Strings are modelled as `List Char`, Python floats
as `ℚ`, the PyMuPDF page object as a record of read-only query functions,
and `difflib.SequenceMatcher(None, a, b).ratio()` as an abstract similarity
oracle passed in as a parameter (it is Python standard-library code, an
external collaborator of the repository; no claim depends on its values).
-/

namespace PatentAnalyzer

/-- The ASCII whitespace characters matched by Python's `str.strip`,
`str.split` and (on ASCII text) the regex class `\s`:
space, tab, newline, carriage return, vertical tab, form feed. -/
def isSpaceCh (c : Char) : Bool :=
  c == ' ' || c == '\t' || c == '\n' || c == '\r' ||
  c == Char.ofNat 11 || c == Char.ofNat 12

/-- `text.replace('\n', ' ').replace('\r', ' ')` acting on one character. -/
def replCR (c : Char) : Char :=
  if c == '\n' || c == '\r' then ' ' else c

/-- Scan for `re.sub(r'\s+', ' ', text)`: `inRun` records whether the
previous character belonged to a whitespace run already replaced. -/
def collapseWsAux : Bool → List Char → List Char
  | _, [] => []
  | inRun, c :: rest =>
    if isSpaceCh c then
      if inRun then collapseWsAux true rest
      else ' ' :: collapseWsAux true rest
    else c :: collapseWsAux false rest

/-- `re.sub(r'\s+', ' ', text)`: every maximal run of whitespace becomes a
single space. -/
def collapseWs (l : List Char) : List Char := collapseWsAux false l

/-- Python `str.strip()`: drop leading and trailing whitespace. -/
def stripWs (l : List Char) : List Char :=
  ((l.dropWhile isSpaceCh).reverse.dropWhile isSpaceCh).reverse

/-- `clean_text` of `src/app.py` (lines 37-41): newlines and carriage
returns to spaces, whitespace runs collapsed to one space, then stripped. -/
def clean_text (s : List Char) : List Char :=
  stripWs (collapseWs (s.map replCR))

/-- `clean_text(s).lower()`, the normalization applied to both page text and
keywords before every comparison in `src/app.py`. -/
def normTxt (s : List Char) : List Char :=
  (clean_text s).map Char.toLower

/-- `p` is a prefix of `s` (the elementwise comparison Python's substring
scan starts from). -/
def leadsWith : List Char → List Char → Bool
  | [], _ => true
  | _ :: _, [] => false
  | a :: as, b :: bs => a == b && leadsWith as bs

/-- Python's `p in s` substring test (true for the empty `p`). -/
def containsSub (p : List Char) : List Char → Bool
  | [] => leadsWith p []
  | c :: t => leadsWith p (c :: t) || containsSub p t

/-- Scan for `str.count` with a nonempty pattern `p`: leftmost-first and
non-overlapping; after a match, `skip` counts how many further characters
still belong to the matched occurrence and must not start a new one. -/
def countSkip (p : List Char) : List Char → Nat → Nat
  | [], _ => 0
  | _ :: t, skip + 1 => countSkip p t skip
  | b :: t, 0 =>
    if leadsWith p (b :: t) then 1 + countSkip p t (p.length - 1)
    else countSkip p t 0

/-- Python `s.count(p)`: non-overlapping occurrences; `len(s) + 1` for the
empty pattern. -/
def countPy : List Char → List Char → Nat
  | [], s => s.length + 1
  | c :: cs, s => countSkip (c :: cs) s 0

/-- Python `s.find(p)`: index of the leftmost occurrence, if any. -/
def findSub (p : List Char) : List Char → Option Nat
  | [] => if leadsWith p [] then some 0 else none
  | c :: t =>
    if leadsWith p (c :: t) then some 0
    else (findSub p t).map (fun n => n + 1)

/-- Scan for `str.split()`: `acc` holds, reversed, the word being read. -/
def splitWordsAux : List Char → List Char → List (List Char)
  | acc, [] => if acc = [] then [] else [acc.reverse]
  | acc, c :: rest =>
    if isSpaceCh c then
      if acc = [] then splitWordsAux [] rest
      else acc.reverse :: splitWordsAux [] rest
    else splitWordsAux (c :: acc) rest

/-- Python `str.split()`: split on whitespace runs, no empty words. -/
def splitWords (s : List Char) : List (List Char) := splitWordsAux [] s

/-! ### The search phase (`search_pdf_ultimate`, lines 43-112)

A document is its list of per-page extracted texts (`page.get_text("text")`
per page, in page order); the per-keyword accumulator dictionary is an
insertion-ordered association list, mirroring a Python `dict`. -/

/-- One keyword's accumulator, the dict literal of lines 52-57
(`count`, `pages`, `contexts`, `found`). -/
structure KwResult where
  count : Nat
  pages : List Nat
  contexts : List (Nat × List Char)
  found : Bool
deriving DecidableEq, Repr

def emptyRes : KwResult := ⟨0, [], [], false⟩

instance : Inhabited KwResult := ⟨emptyRes⟩

/-- The accumulator dictionary: insertion-ordered, one entry per key. -/
abbrev Dict := List (List Char × KwResult)

/-- Python `d[k]` as a partial read. -/
def getVal : Dict → List Char → Option KwResult
  | [], _ => none
  | (k, v) :: rest, q => if k = q then some v else getVal rest q

/-- Python `d[k] = v`: replace in place when the key exists (keeping its
position, as an insertion-ordered dict does), else append. -/
def setKey : Dict → List Char → KwResult → Dict
  | [], q, v => [(q, v)]
  | (k, w) :: rest, q, v =>
    if k = q then (q, v) :: rest else (k, w) :: setKey rest q v

def keysOf (d : Dict) : List (List Char) := d.map Prod.fst

def foundOf (d : Dict) (k : List Char) : Bool :=
  ((getVal d k).getD emptyRes).found

def countOf (d : Dict) (k : List Char) : Nat :=
  ((getVal d k).getD emptyRes).count

def pagesOf (d : Dict) (k : List Char) : List Nat :=
  ((getVal d k).getD emptyRes).pages

/-- Initialisation loop of lines 51-57. -/
def initResults (items : List (List Char)) : Dict :=
  items.foldl (fun d it => setKey d it emptyRes) []

/-- The context snippet of lines 90-98: position found in the cleaned text,
a ±200-character window sliced out of the raw text, newlines to spaces,
stripped. -/
def mkContext (pageText ic tc : List Char) : List Char :=
  let pos := (findSub ic tc).getD 0
  let start := pos - 200
  let stop := min pageText.length (pos + ic.length + 200)
  stripWs (((pageText.take stop).drop start).map
    (fun c => if c == '\n' then ' ' else c))

/-- The per-keyword body of the page loop (lines 78-98): when the normalized
keyword occurs in the normalized page text, set `found`, add the substring
count, append the 1-based page number if new, and keep up to three context
snippets. -/
def pageUpdate (pageText : List Char) (pageNum : Nat) (d : Dict)
    (item : List Char) : Dict :=
  let tc := normTxt pageText
  let ic := normTxt item
  if containsSub ic tc = true then
    let r := (getVal d item).getD emptyRes
    let r1 : KwResult := { r with found := true, count := r.count + countPy ic tc }
    let r2 : KwResult :=
      { r1 with pages := if pageNum ∈ r1.pages then r1.pages else r1.pages ++ [pageNum] }
    let r3 : KwResult :=
      if r2.contexts.length < 3 then
        { r2 with contexts := r2.contexts ++ [(pageNum, mkContext pageText ic tc)] }
      else r2
    setKey d item r3
  else d

/-- The inner keyword loop of one page (line 78). -/
def searchPage (pageText : List Char) (pageNum : Nat) (items : List (List Char))
    (d : Dict) : Dict :=
  items.foldl (pageUpdate pageText pageNum) d

/-- The page loop of lines 67-98; `n` is the 1-based number of the next page. -/
def searchLoop (items : List (List Char)) : List (List Char) → Nat → Dict → Dict
  | [], _, d => d
  | t :: rest, n, d => searchLoop items rest (n + 1) (searchPage t n items d)

/-- The `results` dictionary `search_pdf_ultimate` returns. -/
def searchResults (doc : List (List Char)) (items : List (List Char)) : Dict :=
  searchLoop items doc 1 (initResults items)

/-- The match percentage of lines 107-112. -/
def matchPct (doc : List (List Char)) (items : List (List Char)) : ℚ :=
  let d := searchResults doc items
  let total := items.length
  let matched := d.countP (fun e => e.2.found)
  if total > 0 then (matched : ℚ) / (total : ℚ) * 100 else 0

/-! ### The highlight phase (`highlight_pdf_ultimate`, lines 114-278)

A page is the record of the read-only PyMuPDF queries the code issues:
`search_for`, `get_textbox` (whose failure is `none`, modelling the raised
exception the code catches), `get_text("dict")["blocks"]` (`none` when that
read raises) and `page.rect.width`.  Floats are modelled as rationals. -/

/-- A `fitz.Rect`. -/
structure Rect where
  x0 : ℚ
  y0 : ℚ
  x1 : ℚ
  y1 : ℚ
deriving DecidableEq, Repr

/-- Python `round(x, 1)` on a rational: to the nearest tenth (the tie goes
up in the model; no property here depends on tie direction, which for
binary floats is bankers' rounding). -/
def round1 (q : ℚ) : ℚ := (round (q * 10) : ℚ) / 10

/-- One span of the structured layout (`span["text"]`). -/
structure Span where
  text : List Char
deriving DecidableEq, Repr

/-- One line: its spans and its bounding box (`line["bbox"]`). -/
structure Line where
  spans : List Span
  bbox : Rect
deriving DecidableEq, Repr

/-- One block; `linesOpt = none` models a block without a `"lines"` key. -/
structure Block where
  linesOpt : Option (List Line)
deriving DecidableEq, Repr

/-- The read-only page queries used by the highlight phase. -/
structure PageGeom where
  searchFor : List Char → List Rect
  textbox : Rect → Option (List Char)
  blocks : Option (List Block)
  width : ℚ

/-- The mutable state of one highlight run: the position-key set
`highlighted_positions` (kept in insertion order), `total_highlights`, and
the applied annotations (page number, rectangle, opacity). -/
structure HState where
  positions : List (Nat × ℚ × ℚ)
  total : Nat
  annots : List (Nat × Rect × ℚ)
deriving DecidableEq, Repr

def hEmpty : HState := ⟨[], 0, []⟩

def opacityMain : ℚ := 9 / 20
def opacityLow : ℚ := 7 / 20

/-- The position key of a candidate rectangle on page `pageNum` (0-based):
`(page_num, round(r.x0, 1), round(r.y0, 1))`. -/
def posKey (pageNum : Nat) (r : Rect) : Nat × ℚ × ℚ :=
  (pageNum, round1 r.x0, round1 r.y0)

/-- The applier step every strategy funnels through (e.g. lines 152-160):
if the key is new, record it, add the highlight annotation and count it;
otherwise discard the candidate. -/
def applyCand (pageNum : Nat) (op : ℚ) (st : HState) (r : Rect) : HState :=
  let key := posKey pageNum r
  if key ∈ st.positions then st
  else ⟨st.positions ++ [key], st.total + 1, st.annots ++ [(pageNum, r, op)]⟩

/-- The applier run over a list of candidates
(page number, opacity, rectangle), sharing one position-key set. -/
def applyAll (st : HState) (cands : List (Nat × ℚ × Rect)) : HState :=
  cands.foldl (fun s c => applyCand c.1 c.2.1 s c.2.2) st

/-- The expanded rectangle of strategy 2 (lines 170-178): width estimated
from the first word's box, factor 1.3, clipped to the page width. -/
def expandRect (g : PageGeom) (firstWord itemClean : List Char) (inst : Rect) :
    Rect :=
  let charWidth : ℚ :=
    if firstWord.length > 0 then (inst.x1 - inst.x0) / (firstWord.length : ℚ)
    else 10
  let phraseWidth : ℚ := charWidth * (itemClean.length : ℚ) * (13 / 10)
  ⟨inst.x0 - 2, inst.y0 - 2, min (inst.x0 + phraseWidth) (g.width - 5),
   inst.y1 + 2⟩

/-- Strategy 2 body for one hit of the first word (lines 169-196): read the
expanded rectangle's text (a failed read drops the candidate), accept on
similarity > 0.55 or literal containment. -/
def strat2Inst (sim : List Char → List Char → ℚ) (g : PageGeom) (pageNum : Nat)
    (firstWord itemClean : List Char) (st : HState) (inst : Rect) : HState :=
  let expanded := expandRect g firstWord itemClean inst
  match g.textbox expanded with
  | none => st
  | some t =>
    let rectClean := normTxt t
    if (11 / 20 : ℚ) < sim itemClean rectClean ∨
        containsSub itemClean rectClean = true then
      applyCand pageNum opacityMain st expanded
    else st

/-- `block_text`: every span's text followed by one space, over all lines
(lines 208-211). -/
def lineConcat (l : Line) : List Char :=
  (l.spans.map (fun s => s.text ++ [' '])).flatten

def blockConcat (ls : List Line) : List Char :=
  (ls.map lineConcat).flatten

/-- The candidate line boxes strategy 3 emits (lines 201-234): in each block
whose concatenated span text, normalized, contains the phrase, every line
containing at least one of the phrase's words. -/
def strat3Lines (bs : List Block) (itemClean : List Char)
    (words : List (List Char)) : List Rect :=
  (bs.map fun b =>
    match b.linesOpt with
    | none => []
    | some ls =>
      if containsSub itemClean (normTxt (blockConcat ls)) = true then
        ls.filterMap fun l =>
          if words.any (fun w => containsSub w (normTxt (lineConcat l))) then
            some l.bbox
          else none
      else []).flatten

/-- Strategy 3 (lines 199-236): a failed structured-layout read skips the
strategy; otherwise apply each emitted line box. -/
def strat3Step (g : PageGeom) (pageNum : Nat) (itemClean : List Char)
    (words : List (List Char)) (st : HState) : HState :=
  match g.blocks with
  | none => st
  | some bs =>
    (strat3Lines bs itemClean words).foldl (applyCand pageNum opacityMain) st

/-- The ±100 × ±5 neighbourhood of strategy 4 (lines 247-252). -/
def nearbyRect (inst : Rect) : Rect :=
  ⟨inst.x0 - 100, inst.y0 - 5, inst.x1 + 100, inst.y1 + 5⟩

/-- Strategy 4 body for one hit of one word (lines 246-268): read the
neighbourhood's text (a failed read drops the candidate), accept when some
other word of the phrase occurs there. -/
def strat4Inst (g : PageGeom) (pageNum : Nat) (words : List (List Char))
    (word : List Char) (st : HState) (inst : Rect) : HState :=
  match g.textbox (nearbyRect inst) with
  | none => st
  | some t =>
    let nearbyClean := normTxt t
    if words.any (fun w => w != word && containsSub w nearbyClean) then
      applyCand pageNum opacityLow st inst
    else st

/-- Strategy 4 (lines 241-268): every word longer than two characters. -/
def strat4Step (g : PageGeom) (pageNum : Nat) (words : List (List Char))
    (st : HState) : HState :=
  words.foldl
    (fun s word =>
      if word.length > 2 then
        (g.searchFor word).foldl (strat4Inst g pageNum words word) s
      else s)
    st

/-- One keyword on one page (lines 139-268): normalize, split into words
(an empty word list skips the keyword), then strategy 1 or 2, always
strategy 3, and strategy 4 for phrases of three or more words. -/
def processItem (sim : List Char → List Char → ℚ) (g : PageGeom)
    (pageNum : Nat) (st : HState) (item : List Char) : HState :=
  let itemClean := normTxt item
  match splitWords itemClean with
  | [] => st
  | w0 :: rest =>
    let words := w0 :: rest
    let st1 :=
      if rest = [] then (g.searchFor w0).foldl (applyCand pageNum opacityMain) st
      else (g.searchFor w0).foldl (strat2Inst sim g pageNum w0 itemClean) st
    let st2 := strat3Step g pageNum itemClean words st1
    if 3 ≤ words.length then strat4Step g pageNum words st2 else st2

/-- The keyword loop of one page (line 139). -/
def processPage (sim : List Char → List Char → ℚ) (items : List (List Char))
    (g : PageGeom) (pageNum : Nat) (st : HState) : HState :=
  items.foldl (processItem sim g pageNum) st

/-- The page loop (lines 130-268); `n` is the 0-based `page_num`. -/
def highlightLoop (sim : List Char → List Char → ℚ) (items : List (List Char)) :
    List PageGeom → Nat → HState → HState
  | [], _, st => st
  | g :: rest, n, st =>
    highlightLoop sim items rest (n + 1) (processPage sim items g n st)

/-- The final state of one run of `highlight_pdf_ultimate`. -/
def highlightPdf (sim : List Char → List Char → ℚ) (doc : List PageGeom)
    (items : List (List Char)) : HState :=
  highlightLoop sim items doc 0 hEmpty

/-- The returned `total_highlights`. -/
def totalHighlights (sim : List Char → List Char → ℚ) (doc : List PageGeom)
    (items : List (List Char)) : Nat :=
  (highlightPdf sim doc items).total

/-- The position key of an applied annotation. -/
def annotKey (a : Nat × Rect × ℚ) : Nat × ℚ × ℚ := posKey a.1 a.2.1

/-! ### Invariant definitions and concrete instances used by the claims -/

/-- First-occurrence deduplication, the key order of a Python dict filled
from a list; `seen` holds the keys already inserted. -/
def dedupFirstAux {α : Type} [DecidableEq α] : List α → List α → List α
  | _, [] => []
  | seen, a :: as =>
    if a ∈ seen then dedupFirstAux seen as
    else a :: dedupFirstAux (seen ++ [a]) as

/-- A list with every repetition of an earlier element removed. -/
def dedupFirst {α : Type} [DecidableEq α] (l : List α) : List α :=
  dedupFirstAux [] l

/-- Invariant: every entry's pages list is strictly ascending and bounded
by the page number being processed. -/
def PagesOk (n : Nat) (d : Dict) : Prop :=
  ∀ q, (pagesOf d q).Pairwise (· < ·) ∧ ∀ x ∈ pagesOf d q, x ≤ n

/-- The run invariant: the recorded position keys are exactly the keys of
the applied annotations, with no repetition. -/
def HInv (st : HState) : Prop :=
  st.annots.map annotKey = st.positions ∧ st.positions.Nodup

/-- The position key of a candidate (page, opacity, rectangle). -/
def candKey (c : Nat × ℚ × Rect) : Nat × ℚ × ℚ := posKey c.1 c.2.2

/-! Concrete inputs used by witnesses and counterexamples. -/

def kwGating : List Char := "gating".toList

def pgGating : List Char := "The gating signal enables synchronization.".toList

def kwA : List Char := "a".toList

def pgA : List Char := "a".toList

def pgA2 : List Char := "a a".toList

def kwImageStream : List Char := "image stream".toList

def pgImageStream : List Char := "see the image, stream, continued here".toList

/-- Normalizes to the empty string. -/
def kwSpace : List Char := [' ']

/-- A concrete similarity oracle. -/
def sim0 : List Char → List Char → ℚ := fun _ _ => 0

def r0 : Rect := ⟨0, 0, 1, 1⟩

/-- A page on which every text-box read fails. -/
def g0 : PageGeom := ⟨fun _ => [], fun _ => none, none, 100⟩

def icAB : List Char := "alpha beta".toList

def wsAB : List (List Char) := [ "alpha".toList, "beta".toList ]

/-- A line whose text contains the whole phrase "alpha beta". -/
def lineAB : Line := ⟨[⟨ "alpha beta".toList ⟩], ⟨0, 0, 10, 1⟩⟩

/-- A line whose text contains only the word "beta". -/
def lineB : Line := ⟨[⟨ "beta".toList ⟩], ⟨0, 2, 10, 3⟩⟩

def blockAB : Block := ⟨some [lineAB, lineB]⟩

/-! ### Generic fold invariants -/

theorem foldl_pres {τ β : Type} {f : τ → β → τ} {P : τ → Prop}
    (l : List β) (h : ∀ d b, b ∈ l → P d → P (f d b)) :
    ∀ d, P d → P (l.foldl f d) := by
  induction l with
  | nil => intro d hd; simpa using hd
  | cons a t ih =>
    intro d hd
    simp only [List.foldl_cons]
    exact ih (fun d b hb => h d b (List.mem_cons_of_mem a hb)) _
      (h d a (List.mem_cons_self a t) hd)

theorem foldl_estab {τ β : Type} {f : τ → β → τ} {P : τ → Prop}
    (l : List β) (a : β) (ha : a ∈ l)
    (hset : ∀ d, P (f d a))
    (h : ∀ d b, b ∈ l → P d → P (f d b)) :
    ∀ d, P (l.foldl f d) := by
  induction l with
  | nil => cases ha
  | cons b t ih =>
    intro d
    simp only [List.foldl_cons]
    rcases List.mem_cons.mp ha with h1 | h2
    · subst h1
      exact foldl_pres t (fun d b hb => h d b (by simp [hb])) _ (hset d)
    · exact ih h2 (fun d b hb => h d b (by simp [hb])) _

/-! ### Association-list dictionary lemmas -/

theorem getVal_setKey_self (d : Dict) (k : List Char) (v : KwResult) :
    getVal (setKey d k v) k = some v := by
  induction d with
  | nil => simp [setKey, getVal]
  | cons e rest ih =>
    obtain ⟨k', w⟩ := e
    by_cases h : k' = k
    · simp [setKey, h, getVal]
    · simp [setKey, h, getVal, ih]

theorem getVal_setKey_ne (d : Dict) {k q : List Char} (v : KwResult)
    (h : k ≠ q) : getVal (setKey d k v) q = getVal d q := by
  induction d with
  | nil => simp [setKey, getVal, h]
  | cons e rest ih =>
    obtain ⟨k', w⟩ := e
    by_cases h' : k' = k
    · subst h'; simp [setKey, getVal, h]
    · simp [setKey, h', getVal, ih]

theorem keysOf_setKey_mem (v : KwResult) :
    ∀ (d : Dict) (k : List Char), k ∈ keysOf d →
      keysOf (setKey d k v) = keysOf d := by
  intro d
  induction d with
  | nil => intro k h; simp [keysOf] at h
  | cons e rest ih =>
    intro k h
    obtain ⟨k', w⟩ := e
    by_cases h' : k' = k
    · simp [setKey, h', keysOf]
    · have h2 : k ∈ keysOf rest := by
        simp only [keysOf, List.map_cons, List.mem_cons] at h
        rcases h with h1 | h1
        · exact absurd h1.symm h'
        · exact h1
      have h3 := ih k h2
      simp only [keysOf] at h3
      simp [setKey, h', keysOf, h3]

theorem keysOf_setKey_not_mem (v : KwResult) :
    ∀ (d : Dict) (k : List Char), k ∉ keysOf d →
      keysOf (setKey d k v) = keysOf d ++ [k] := by
  intro d
  induction d with
  | nil => intro k h; simp [setKey, keysOf]
  | cons e rest ih =>
    intro k h
    obtain ⟨k', w⟩ := e
    simp only [keysOf, List.map_cons, List.mem_cons] at h
    push_neg at h
    have h3 := ih k h.2
    simp only [keysOf] at h3
    simp [setKey, Ne.symm h.1, keysOf, h3]

theorem getVal_eq_none_iff (d : Dict) (k : List Char) :
    getVal d k = none ↔ k ∉ keysOf d := by
  induction d with
  | nil => simp [getVal, keysOf]
  | cons e rest ih =>
    obtain ⟨k', w⟩ := e
    by_cases h : k' = k
    · simp [getVal, h, keysOf]
    · simp [getVal, h, keysOf, ih, Ne.symm h]

theorem getVal_mem {d : Dict} {k : List Char} {v : KwResult}
    (h : getVal d k = some v) : (k, v) ∈ d := by
  induction d with
  | nil => simp [getVal] at h
  | cons e rest ih =>
    obtain ⟨k', w⟩ := e
    by_cases h' : k' = k
    · subst h'
      simp [getVal] at h
      simp [h]
    · simp [getVal, h'] at h
      exact List.mem_cons_of_mem _ (ih h)

theorem getVal_of_mem_nodup {d : Dict} {k : List Char} {v : KwResult}
    (hn : (keysOf d).Nodup) (h : (k, v) ∈ d) : getVal d k = some v := by
  induction d with
  | nil => simp at h
  | cons e rest ih =>
    obtain ⟨k', w⟩ := e
    simp only [keysOf, List.map_cons, List.nodup_cons] at hn
    rcases List.mem_cons.mp h with h1 | h2
    · rw [Prod.mk.injEq] at h1
      simp [getVal, h1.1.symm, h1.2]
    · have hk : k' ≠ k := by
        intro he
        subst he
        exact hn.1 (by simpa [keysOf] using List.mem_map_of_mem Prod.fst h2)
      simp [getVal, hk]
      exact ih hn.2 h2

/-! ### Search-phase invariants -/

theorem getVal_init (items : List (List Char)) (k : List Char) :
    getVal (initResults items) k = none ∨
    getVal (initResults items) k = some emptyRes := by
  refine foldl_pres
    (P := fun d => getVal d k = none ∨ getVal d k = some emptyRes)
    items (fun d b _ hd => ?_) [] (Or.inl rfl)
  by_cases hb : b = k
  · subst hb
    exact Or.inr (getVal_setKey_self d b emptyRes)
  · show getVal (setKey d b emptyRes) k = none ∨
        getVal (setKey d b emptyRes) k = some emptyRes
    rwa [getVal_setKey_ne d emptyRes hb]

theorem foundOf_init (items : List (List Char)) (k : List Char) :
    foundOf (initResults items) k = false := by
  rcases getVal_init items k with h | h <;> simp [foundOf, h, emptyRes]

theorem countOf_init (items : List (List Char)) (k : List Char) :
    countOf (initResults items) k = 0 := by
  rcases getVal_init items k with h | h <;> simp [countOf, h, emptyRes]

theorem pagesOf_init (items : List (List Char)) (k : List Char) :
    pagesOf (initResults items) k = [] := by
  rcases getVal_init items k with h | h <;> simp [pagesOf, h, emptyRes]

/-- The record `pageUpdate` writes always carries `found := true`. -/
theorem pageUpdate_getVal_self (T : List Char) (n : Nat) (d : Dict)
    (k : List Char) (hc : containsSub (normTxt k) (normTxt T) = true) :
    ∃ r : KwResult, getVal (pageUpdate T n d k) k = some r ∧ r.found = true := by
  simp only [pageUpdate, hc, if_true]
  refine ⟨_, getVal_setKey_self .., ?_⟩
  split <;> rfl

theorem foundOf_pageUpdate_self (T : List Char) (n : Nat) (d : Dict)
    (k : List Char) (hc : containsSub (normTxt k) (normTxt T) = true) :
    foundOf (pageUpdate T n d k) k = true := by
  obtain ⟨r, hr, hf⟩ := pageUpdate_getVal_self T n d k hc
  simp [foundOf, hr, hf]

theorem foundOf_pageUpdate_mono (T : List Char) (n : Nat) (d : Dict)
    (it k : List Char) (h : foundOf d k = true) :
    foundOf (pageUpdate T n d it) k = true := by
  by_cases hc : containsSub (normTxt it) (normTxt T) = true
  · by_cases hik : it = k
    · subst hik
      exact foundOf_pageUpdate_self T n d it hc
    · simp only [pageUpdate, hc, if_true]
      unfold foundOf
      rw [getVal_setKey_ne d _ hik]
      exact h
  · simpa [pageUpdate, hc] using h

theorem foundOf_searchPage_mono (T : List Char) (n : Nat)
    (items : List (List Char)) (d : Dict) (k : List Char)
    (h : foundOf d k = true) : foundOf (searchPage T n items d) k = true :=
  foldl_pres items (fun d b _ hd => foundOf_pageUpdate_mono T n d b k hd) d h

theorem foundOf_searchPage_self (T : List Char) (n : Nat)
    (items : List (List Char)) (d : Dict) (k : List Char) (hk : k ∈ items)
    (hc : containsSub (normTxt k) (normTxt T) = true) :
    foundOf (searchPage T n items d) k = true :=
  foldl_estab items k hk (fun d => foundOf_pageUpdate_self T n d k hc)
    (fun d b _ hd => foundOf_pageUpdate_mono T n d b k hd) d

theorem foundOf_searchLoop_mono (items : List (List Char)) :
    ∀ (doc : List (List Char)) (n : Nat) (d : Dict) (k : List Char),
      foundOf d k = true → foundOf (searchLoop items doc n d) k = true := by
  intro doc
  induction doc with
  | nil => intro n d k h; exact h
  | cons t rest ih =>
    intro n d k h
    exact ih (n + 1) _ k (foundOf_searchPage_mono t n items d k h)

/-- Whenever the normalized keyword occurs in the normalized text of a page
of the document, the final `found` flag is true. -/
theorem found_of_contains (items : List (List Char)) (k T : List Char)
    (hk : k ∈ items) (hc : containsSub (normTxt k) (normTxt T) = true) :
    ∀ (doc : List (List Char)) (n : Nat) (d : Dict), T ∈ doc →
      foundOf (searchLoop items doc n d) k = true := by
  intro doc
  induction doc with
  | nil => intro n d h; cases h
  | cons t rest ih =>
    intro n d hT
    rcases List.mem_cons.mp hT with h1 | h2
    · subst h1
      exact foundOf_searchLoop_mono items rest (n + 1) _ k
        (foundOf_searchPage_self T n items d k hk hc)
    · exact ih (n + 1) _ h2

/-! ### The occurrence-count bookkeeping -/

theorem containsSub_nil_left (s : List Char) : containsSub [] s = true := by
  cases s <;> simp [containsSub, leadsWith]

theorem countSkip_zero_of_not (p : List Char) :
    ∀ s, containsSub p s = false → countSkip p s 0 = 0 := by
  intro s
  induction s with
  | nil => intro _; rfl
  | cons b t ih =>
    intro h
    simp only [containsSub, Bool.or_eq_false_iff] at h
    simp [countSkip, h.1, ih h.2]

/-- A pattern that does not occur has substring count zero. -/
theorem countPy_zero {p s : List Char} (h : containsSub p s = false) :
    countPy p s = 0 := by
  cases p with
  | nil => rw [containsSub_nil_left] at h; cases h
  | cons c cs => exact countSkip_zero_of_not (c :: cs) s h

theorem pageUpdate_getVal_count (T : List Char) (n : Nat) (d : Dict)
    (k : List Char) (hc : containsSub (normTxt k) (normTxt T) = true) :
    ∃ r : KwResult, getVal (pageUpdate T n d k) k = some r ∧
      r.count = countOf d k + countPy (normTxt k) (normTxt T) := by
  simp only [pageUpdate, hc, if_true]
  refine ⟨_, getVal_setKey_self .., ?_⟩
  split <;> rfl

/-- One processing of keyword `it` on page text `T` adds exactly the
substring count of the keyword (and touches no other entry). -/
theorem countOf_pageUpdate (T : List Char) (n : Nat) (d : Dict)
    (it k : List Char) :
    countOf (pageUpdate T n d it) k =
      countOf d k +
        (if it = k then countPy (normTxt k) (normTxt T) else 0) := by
  by_cases hc : containsSub (normTxt it) (normTxt T) = true
  · by_cases hik : it = k
    · subst hik
      obtain ⟨r, hr, hcount⟩ := pageUpdate_getVal_count T n d it hc
      simp [countOf, hr] at hcount ⊢
      simp [hcount]
    · simp only [pageUpdate, hc, if_true]
      unfold countOf
      rw [getVal_setKey_ne d _ hik, if_neg hik]
      omega
  · have hd : pageUpdate T n d it = d := by simp [pageUpdate, hc]
    rw [hd]
    by_cases hik : it = k
    · subst hik
      rw [if_pos rfl, countPy_zero (Bool.eq_false_iff.mpr hc)]
      omega
    · rw [if_neg hik]
      omega

theorem countOf_searchPage (T : List Char) (n : Nat) (k : List Char) :
    ∀ (items : List (List Char)) (d : Dict),
      countOf (searchPage T n items d) k =
        countOf d k + items.count k * countPy (normTxt k) (normTxt T) := by
  intro items
  induction items with
  | nil => intro d; simp [searchPage]
  | cons it rest ih =>
    intro d
    have : searchPage T n (it :: rest) d =
        searchPage T n rest (pageUpdate T n d it) := rfl
    rw [this, ih, countOf_pageUpdate, List.count_cons]
    by_cases hik : it = k
    · simp [hik]
      ring
    · simp [hik, Ne.symm hik]

theorem countOf_searchLoop (items : List (List Char)) (k : List Char) :
    ∀ (doc : List (List Char)) (n : Nat) (d : Dict),
      countOf (searchLoop items doc n d) k =
        countOf d k +
          items.count k *
            (doc.map (fun T => countPy (normTxt k) (normTxt T))).sum := by
  intro doc
  induction doc with
  | nil => intro n d; simp [searchLoop]
  | cons t rest ih =>
    intro n d
    have : searchLoop items (t :: rest) n d =
        searchLoop items rest (n + 1) (searchPage t n items d) := rfl
    rw [this, ih, countOf_searchPage]
    simp only [List.map_cons, List.sum_cons]
    ring

/-- The closed form of every keyword's final count. -/
theorem countOf_searchResults (doc items : List (List Char)) (k : List Char) :
    countOf (searchResults doc items) k =
      items.count k *
        (doc.map (fun T => countPy (normTxt k) (normTxt T))).sum := by
  unfold searchResults
  rw [countOf_searchLoop, countOf_init]
  omega

/-! ### The pages list: strictly ascending, no repetitions -/

theorem getVal_pageUpdate_ne (T : List Char) (n : Nat) (d : Dict)
    {it q : List Char} (h : it ≠ q) :
    getVal (pageUpdate T n d it) q = getVal d q := by
  by_cases hc : containsSub (normTxt it) (normTxt T) = true <;>
    simp [pageUpdate, hc, getVal_setKey_ne d _ h]

theorem pageUpdate_getVal_pages (T : List Char) (n : Nat) (d : Dict)
    (k : List Char) (hc : containsSub (normTxt k) (normTxt T) = true) :
    ∃ r : KwResult, getVal (pageUpdate T n d k) k = some r ∧
      r.pages =
        (if n ∈ pagesOf d k then pagesOf d k else pagesOf d k ++ [n]) := by
  simp only [pageUpdate, hc, if_true]
  refine ⟨_, getVal_setKey_self .., ?_⟩
  split <;> rfl


theorem pagesOk_mono {m n : Nat} (h : m ≤ n) {d : Dict} (hd : PagesOk m d) :
    PagesOk n d :=
  fun q => ⟨(hd q).1, fun x hx => le_trans ((hd q).2 x hx) h⟩

theorem pagesOk_pageUpdate (T : List Char) (n : Nat) (d : Dict)
    (it : List Char) (h : PagesOk n d) : PagesOk n (pageUpdate T n d it) := by
  intro q
  by_cases hc : containsSub (normTxt it) (normTxt T) = true
  · by_cases hq : it = q
    · subst hq
      obtain ⟨r, hr, hp⟩ := pageUpdate_getVal_pages T n d it hc
      have hold := h it
      have hpq : pagesOf (pageUpdate T n d it) it = r.pages := by
        simp [pagesOf, hr]
      rw [hpq, hp]
      by_cases hn : n ∈ pagesOf d it
      · simpa [hn] using hold
      · rw [if_neg hn]
        constructor
        · rw [List.pairwise_append]
          refine ⟨hold.1, List.pairwise_singleton _ _, ?_⟩
          intro x hx y hy
          rw [List.mem_singleton] at hy
          have h1 := hold.2 x hx
          have h2 : x ≠ n := fun he => hn (he ▸ hx)
          omega
        · intro x hx
          rcases List.mem_append.mp hx with h1 | h1
          · exact hold.2 x h1
          · rw [List.mem_singleton] at h1
            omega
    · have : pagesOf (pageUpdate T n d it) q = pagesOf d q := by
        simp [pagesOf, getVal_pageUpdate_ne T n d hq]
      rw [this]
      exact h q
  · have : pageUpdate T n d it = d := by simp [pageUpdate, hc]
    rw [this]
    exact h q

theorem pagesOk_searchPage (T : List Char) (n : Nat)
    (items : List (List Char)) (d : Dict) (h : PagesOk n d) :
    PagesOk n (searchPage T n items d) :=
  foldl_pres items (fun d b _ hd => pagesOk_pageUpdate T n d b hd) d h

theorem pagesOf_searchLoop_pairwise (items : List (List Char)) :
    ∀ (doc : List (List Char)) (n : Nat) (d : Dict), PagesOk n d →
      ∀ q, (pagesOf (searchLoop items doc n d) q).Pairwise (· < ·) := by
  intro doc
  induction doc with
  | nil => intro n d h q; exact (h q).1
  | cons t rest ih =>
    intro n d h q
    exact ih (n + 1) _
      (pagesOk_mono (Nat.le_succ n) (pagesOk_searchPage t n items d h)) q

theorem pagesOk_init (items : List (List Char)) (n : Nat) :
    PagesOk n (initResults items) := by
  intro q
  rw [pagesOf_init]
  exact ⟨List.Pairwise.nil, by simp⟩

/-! ### Keys of the result dictionary: input order, first occurrences -/


theorem keysOf_foldl_setKey :
    ∀ (l : List (List Char)) (d : Dict),
      keysOf (l.foldl (fun d it => setKey d it emptyRes) d) =
        keysOf d ++ dedupFirstAux (keysOf d) l := by
  intro l
  induction l with
  | nil => intro d; simp [dedupFirstAux]
  | cons a as ih =>
    intro d
    simp only [List.foldl_cons]
    by_cases hm : a ∈ keysOf d
    · rw [ih, keysOf_setKey_mem emptyRes d a hm]
      simp [dedupFirstAux, hm]
    · rw [ih, keysOf_setKey_not_mem emptyRes d a hm]
      simp [dedupFirstAux, hm, List.append_assoc]

theorem keysOf_init (items : List (List Char)) :
    keysOf (initResults items) = dedupFirst items := by
  have h := keysOf_foldl_setKey items []
  simpa [initResults, keysOf, dedupFirst] using h

theorem mem_dedupFirstAux {α : Type} [DecidableEq α] :
    ∀ (l seen : List α) (a : α), a ∈ l →
      a ∈ seen ∨ a ∈ dedupFirstAux seen l := by
  intro l
  induction l with
  | nil => intro seen a h; cases h
  | cons b as ih =>
    intro seen a h
    by_cases hb : b ∈ seen
    · simp only [dedupFirstAux, if_pos hb]
      rcases List.mem_cons.mp h with h1 | h1
      · subst h1; exact Or.inl hb
      · exact ih seen a h1
    · simp only [dedupFirstAux, if_neg hb]
      rcases List.mem_cons.mp h with h1 | h1
      · subst h1; exact Or.inr (List.mem_cons_self _ _)
      · rcases ih (seen ++ [b]) a h1 with h2 | h2
        · rcases List.mem_append.mp h2 with h3 | h3
          · exact Or.inl h3
          · rw [List.mem_singleton] at h3
            subst h3
            exact Or.inr (List.mem_cons_self _ _)
        · exact Or.inr (List.mem_cons_of_mem _ h2)

theorem mem_dedupFirst {α : Type} [DecidableEq α] {l : List α} {a : α}
    (h : a ∈ l) : a ∈ dedupFirst l := by
  rcases mem_dedupFirstAux l [] a h with h1 | h1
  · cases h1
  · exact h1

theorem keysOf_pageUpdate (T : List Char) (n : Nat) (d : Dict)
    (it : List Char) (hit : it ∈ keysOf d) :
    keysOf (pageUpdate T n d it) = keysOf d := by
  by_cases hc : containsSub (normTxt it) (normTxt T) = true <;>
    simp [pageUpdate, hc, keysOf_setKey_mem _ d it hit]

theorem keysOf_searchPage (T : List Char) (n : Nat)
    (items : List (List Char)) (d : Dict)
    (h : keysOf d = dedupFirst items) :
    keysOf (searchPage T n items d) = dedupFirst items := by
  refine foldl_pres (P := fun d => keysOf d = dedupFirst items)
    items (fun d b hb hd => ?_) d h
  show keysOf (pageUpdate T n d b) = dedupFirst items
  rw [keysOf_pageUpdate T n d b (hd ▸ mem_dedupFirst hb), hd]

theorem keysOf_searchLoop (items : List (List Char)) :
    ∀ (doc : List (List Char)) (n : Nat) (d : Dict),
      keysOf d = dedupFirst items →
      keysOf (searchLoop items doc n d) = dedupFirst items := by
  intro doc
  induction doc with
  | nil => intro n d h; exact h
  | cons t rest ih =>
    intro n d h
    exact ih (n + 1) _ (keysOf_searchPage t n items d h)

/-- The result dictionary's key list is exactly the input keyword list with
later duplicates dropped. -/
theorem keysOf_searchResults (doc items : List (List Char)) :
    keysOf (searchResults doc items) = dedupFirst items :=
  keysOf_searchLoop items doc 1 _ (keysOf_init items)

theorem dedupFirstAux_nodup {α : Type} [DecidableEq α] :
    ∀ (l seen : List α), (dedupFirstAux seen l).Nodup ∧
      ∀ a ∈ dedupFirstAux seen l, a ∉ seen := by
  intro l
  induction l with
  | nil => intro seen; simp [dedupFirstAux]
  | cons b as ih =>
    intro seen
    by_cases hb : b ∈ seen
    · simpa [dedupFirstAux, hb] using ih seen
    · obtain ⟨h1, h2⟩ := ih (seen ++ [b])
      simp only [dedupFirstAux, if_neg hb]
      constructor
      · rw [List.nodup_cons]
        refine ⟨fun hmem => ?_, h1⟩
        exact h2 b hmem (by simp)
      · intro a ha
        rcases List.mem_cons.mp ha with h3 | h3
        · subst h3; exact hb
        · intro hs
          exact h2 a h3 (List.mem_append_left _ hs)

theorem dedupFirstAux_length_le {α : Type} [DecidableEq α] :
    ∀ (l seen : List α), (dedupFirstAux seen l).length ≤ l.length := by
  intro l
  induction l with
  | nil => intro seen; simp [dedupFirstAux]
  | cons b as ih =>
    intro seen
    by_cases hb : b ∈ seen
    · simp only [dedupFirstAux, if_pos hb, List.length_cons]
      exact Nat.le_succ_of_le (ih seen)
    · simp only [dedupFirstAux, if_neg hb, List.length_cons]
      exact Nat.succ_le_succ (ih (seen ++ [b]))

theorem nodup_of_dedupFirstAux_length {α : Type} [DecidableEq α] :
    ∀ (l seen : List α), (dedupFirstAux seen l).length = l.length →
      l.Nodup ∧ ∀ a ∈ l, a ∉ seen := by
  intro l
  induction l with
  | nil => intro seen _; simp
  | cons b as ih =>
    intro seen h
    by_cases hb : b ∈ seen
    · exfalso
      simp only [dedupFirstAux, if_pos hb, List.length_cons] at h
      have := dedupFirstAux_length_le as seen
      omega
    · simp only [dedupFirstAux, if_neg hb, List.length_cons,
        Nat.succ.injEq] at h
      obtain ⟨h1, h2⟩ := ih (seen ++ [b]) h
      refine ⟨List.nodup_cons.mpr ⟨fun hm => ?_, h1⟩, ?_⟩
      · exact h2 b hm (by simp)
      · intro a ha
        rcases List.mem_cons.mp ha with h3 | h3
        · subst h3; exact hb
        · intro hs
          exact h2 a h3 (List.mem_append_left _ hs)

theorem dedupFirstAux_of_nodup {α : Type} [DecidableEq α] :
    ∀ (l seen : List α), l.Nodup → (∀ a ∈ l, a ∉ seen) →
      dedupFirstAux seen l = l := by
  intro l
  induction l with
  | nil => intro seen _ _; rfl
  | cons b as ih =>
    intro seen hn hs
    have hb : b ∉ seen := hs b (List.mem_cons_self _ _)
    rw [List.nodup_cons] at hn
    simp only [dedupFirstAux, if_neg hb]
    rw [ih (seen ++ [b]) hn.2]
    intro a ha
    rw [List.mem_append, List.mem_singleton]
    push_neg
    exact ⟨hs a (List.mem_cons_of_mem _ ha), fun he => hn.1 (he ▸ ha)⟩

theorem dedupFirst_of_nodup {α : Type} [DecidableEq α] {l : List α}
    (h : l.Nodup) : dedupFirst l = l :=
  dedupFirstAux_of_nodup l [] h (by simp)

/-! ### Match-percentage bookkeeping -/

theorem exists_getVal_of_mem_keys {d : Dict} {k : List Char}
    (h : k ∈ keysOf d) : ∃ v, getVal d k = some v := by
  cases hv : getVal d k with
  | none => exact absurd ((getVal_eq_none_iff d k).mp hv) (not_not_intro h)
  | some v => exact ⟨v, rfl⟩

theorem foundOf_eq_of_mem {d : Dict} (hn : (keysOf d).Nodup)
    {k : List Char} {v : KwResult} (h : (k, v) ∈ d) :
    foundOf d k = v.found := by
  simp [foundOf, getVal_of_mem_nodup hn h]

theorem rat_div_bounds {m t : Nat} (hmt : m ≤ t) (ht : 0 < t) :
    0 ≤ (m : ℚ) / t * 100 ∧ (m : ℚ) / t * 100 ≤ 100 := by
  have ht' : (0 : ℚ) < t := by exact_mod_cast ht
  constructor
  · positivity
  · have h1 : (m : ℚ) / t ≤ 1 := by
      rw [div_le_one ht']
      exact_mod_cast hmt
    calc (m : ℚ) / t * 100 ≤ 1 * 100 := by
          exact mul_le_mul_of_nonneg_right h1 (by norm_num)
      _ = 100 := by norm_num

theorem rat_pct_eq_100_iff (m t : Nat) (ht : 0 < t) :
    (m : ℚ) / t * 100 = 100 ↔ m = t := by
  have ht' : (t : ℚ) ≠ 0 := by
    exact_mod_cast Nat.pos_iff_ne_zero.mp ht
  rw [div_mul_eq_mul_div, div_eq_iff ht']
  constructor
  · intro h
    have h2 : (m : ℚ) * 100 = (t : ℚ) * 100 := by linarith
    have h3 : (m : ℚ) = (t : ℚ) :=
      mul_right_cancel₀ (by norm_num) h2
    exact_mod_cast h3
  · intro h
    subst h
    ring

/-! ### Highlight run: the dedup invariant -/

theorem applyCand_eq (p : Nat) (op : ℚ) (st : HState) (r : Rect) :
    applyCand p op st r =
      if posKey p r ∈ st.positions then st
      else ⟨st.positions ++ [posKey p r], st.total + 1,
            st.annots ++ [(p, r, op)]⟩ := rfl

theorem strat2Inst_eq (sim : List Char → List Char → ℚ) (g : PageGeom)
    (p : Nat) (w0 ic : List Char) (st : HState) (inst : Rect) :
    strat2Inst sim g p w0 ic st inst =
      match g.textbox (expandRect g w0 ic inst) with
      | none => st
      | some t =>
        if (11 / 20 : ℚ) < sim ic (normTxt t) ∨
            containsSub ic (normTxt t) = true then
          applyCand p opacityMain st (expandRect g w0 ic inst)
        else st := rfl

theorem strat4Inst_eq (g : PageGeom) (p : Nat) (ws : List (List Char))
    (w : List Char) (st : HState) (inst : Rect) :
    strat4Inst g p ws w st inst =
      match g.textbox (nearbyRect inst) with
      | none => st
      | some t =>
        if ws.any (fun x => x != w && containsSub x (normTxt t)) then
          applyCand p opacityLow st inst
        else st := rfl

theorem processItem_eq (sim : List Char → List Char → ℚ) (g : PageGeom)
    (p : Nat) (st : HState) (item : List Char) :
    processItem sim g p st item =
      match splitWords (normTxt item) with
      | [] => st
      | w0 :: rest =>
        let st1 :=
          if rest = [] then
            (g.searchFor w0).foldl (applyCand p opacityMain) st
          else
            (g.searchFor w0).foldl (strat2Inst sim g p w0 (normTxt item)) st
        let st2 := strat3Step g p (normTxt item) (w0 :: rest) st1
        if 3 ≤ (w0 :: rest).length then strat4Step g p (w0 :: rest) st2
        else st2 := rfl


theorem hInv_empty : HInv hEmpty := ⟨rfl, List.nodup_nil⟩

theorem hInv_applyCand (p : Nat) (op : ℚ) (st : HState) (r : Rect)
    (h : HInv st) : HInv (applyCand p op st r) := by
  unfold applyCand
  by_cases hk : posKey p r ∈ st.positions
  · simpa [hk] using h
  · simp only [if_neg hk]
    constructor
    · simp [annotKey, h.1]
    · rw [List.nodup_append]
      refine ⟨h.2, List.nodup_singleton _, ?_⟩
      intro x hx hx'
      rw [List.mem_singleton] at hx'
      subst hx'
      exact hk hx

theorem hInv_foldl_applyCand (p : Nat) (op : ℚ) (l : List Rect)
    (st : HState) (h : HInv st) : HInv (l.foldl (applyCand p op) st) :=
  foldl_pres l (fun st r _ hst => hInv_applyCand p op st r hst) st h

theorem hInv_strat2Inst (sim : List Char → List Char → ℚ) (g : PageGeom)
    (p : Nat) (w0 ic : List Char) (st : HState) (inst : Rect)
    (h : HInv st) : HInv (strat2Inst sim g p w0 ic st inst) := by
  rw [strat2Inst_eq]
  cases g.textbox (expandRect g w0 ic inst) with
  | none => exact h
  | some t =>
    simp only
    split
    · exact hInv_applyCand p opacityMain st _ h
    · exact h

theorem hInv_strat3Step (g : PageGeom) (p : Nat) (ic : List Char)
    (ws : List (List Char)) (st : HState) (h : HInv st) :
    HInv (strat3Step g p ic ws st) := by
  unfold strat3Step
  cases g.blocks with
  | none => exact h
  | some bs => exact hInv_foldl_applyCand p opacityMain _ st h

theorem hInv_strat4Inst (g : PageGeom) (p : Nat) (ws : List (List Char))
    (w : List Char) (st : HState) (inst : Rect) (h : HInv st) :
    HInv (strat4Inst g p ws w st inst) := by
  rw [strat4Inst_eq]
  cases g.textbox (nearbyRect inst) with
  | none => exact h
  | some t =>
    simp only
    split
    · exact hInv_applyCand p opacityLow st _ h
    · exact h

theorem hInv_strat4Step (g : PageGeom) (p : Nat) (ws : List (List Char))
    (st : HState) (h : HInv st) : HInv (strat4Step g p ws st) := by
  unfold strat4Step
  refine foldl_pres (P := HInv) ws (fun st w _ hst => ?_) st h
  split
  · exact foldl_pres (P := HInv) _
      (fun st inst _ hst' => hInv_strat4Inst g p ws w st inst hst') st hst
  · exact hst

theorem hInv_processItem (sim : List Char → List Char → ℚ) (g : PageGeom)
    (p : Nat) (st : HState) (item : List Char) (h : HInv st) :
    HInv (processItem sim g p st item) := by
  rw [processItem_eq]
  cases splitWords (normTxt item) with
  | nil => exact h
  | cons w0 rest =>
    simp only
    have h1 : HInv (if rest = [] then
        (g.searchFor w0).foldl (applyCand p opacityMain) st
      else
        (g.searchFor w0).foldl (strat2Inst sim g p w0 (normTxt item)) st) := by
      split
      · exact hInv_foldl_applyCand p opacityMain _ st h
      · exact foldl_pres (P := HInv) _
          (fun st inst _ hst => hInv_strat2Inst sim g p w0 _ st inst hst) st h
    have h2 := hInv_strat3Step g p (normTxt item) (w0 :: rest) _ h1
    split
    · exact hInv_strat4Step g p _ _ h2
    · exact h2

theorem hInv_processPage (sim : List Char → List Char → ℚ)
    (items : List (List Char)) (g : PageGeom) (p : Nat) (st : HState)
    (h : HInv st) : HInv (processPage sim items g p st) :=
  foldl_pres items (fun st it _ hst => hInv_processItem sim g p st it hst) st h

theorem hInv_highlightLoop (sim : List Char → List Char → ℚ)
    (items : List (List Char)) :
    ∀ (doc : List PageGeom) (n : Nat) (st : HState), HInv st →
      HInv (highlightLoop sim items doc n st) := by
  intro doc
  induction doc with
  | nil => intro n st h; exact h
  | cons g rest ih =>
    intro n st h
    exact ih (n + 1) _ (hInv_processPage sim items g n st h)

theorem hInv_highlightPdf (sim : List Char → List Char → ℚ)
    (doc : List PageGeom) (items : List (List Char)) :
    HInv (highlightPdf sim doc items) :=
  hInv_highlightLoop sim items doc 0 hEmpty hInv_empty

/-! ### The applier alone: growth and idempotence -/


theorem positions_mono_applyCand (p : Nat) (op : ℚ) (st : HState) (r : Rect)
    {x : Nat × ℚ × ℚ} (h : x ∈ st.positions) :
    x ∈ (applyCand p op st r).positions := by
  rw [applyCand_eq]
  split
  · exact h
  · exact List.mem_append_left _ h

theorem key_mem_applyCand (p : Nat) (op : ℚ) (st : HState) (r : Rect) :
    posKey p r ∈ (applyCand p op st r).positions := by
  rw [applyCand_eq]
  split
  · assumption
  · simp

theorem positions_mono_applyAll :
    ∀ (cands : List (Nat × ℚ × Rect)) (st : HState) (x : Nat × ℚ × ℚ),
      x ∈ st.positions → x ∈ (applyAll st cands).positions := by
  intro cands
  induction cands with
  | nil => intro st x h; exact h
  | cons c rest ih =>
    intro st x h
    exact ih _ x (positions_mono_applyCand c.1 c.2.1 st c.2.2 h)

theorem key_mem_applyAll :
    ∀ (cands : List (Nat × ℚ × Rect)) (st : HState) (c : Nat × ℚ × Rect),
      c ∈ cands → candKey c ∈ (applyAll st cands).positions := by
  intro cands
  induction cands with
  | nil => intro st c h; cases h
  | cons b rest ih =>
    intro st c h
    rcases List.mem_cons.mp h with h1 | h1
    · subst h1
      exact positions_mono_applyAll rest _ _
        (key_mem_applyCand c.1 c.2.1 st c.2.2)
    · exact ih _ c h1

theorem applyAll_stable :
    ∀ (cands : List (Nat × ℚ × Rect)) (st : HState),
      (∀ c ∈ cands, candKey c ∈ st.positions) → applyAll st cands = st := by
  intro cands
  induction cands with
  | nil => intro st _; rfl
  | cons c rest ih =>
    intro st h
    have hc : applyCand c.1 c.2.1 st c.2.2 = st := by
      rw [applyCand_eq]
      exact if_pos (h c (List.mem_cons_self _ _))
    show applyAll (applyCand c.1 c.2.1 st c.2.2) rest = st
    rw [hc]
    exact ih st (fun b hb => h b (List.mem_cons_of_mem _ hb))

theorem applyAll_append (st : HState) (c1 c2 : List (Nat × ℚ × Rect)) :
    applyAll st (c1 ++ c2) = applyAll (applyAll st c1) c2 :=
  List.foldl_append ..

/-! ### Per-candidate failure, strategy 3 emission, empty keywords -/

theorem pageUpdate_not_contains (T : List Char) (n : Nat) (d : Dict)
    (k : List Char) (hc : containsSub (normTxt k) (normTxt T) = false) :
    pageUpdate T n d k = d := by
  simp [pageUpdate, hc]

theorem strat2Inst_textbox_none (sim : List Char → List Char → ℚ)
    (g : PageGeom) (p : Nat) (w0 ic : List Char) (st : HState) (inst : Rect)
    (h : g.textbox (expandRect g w0 ic inst) = none) :
    strat2Inst sim g p w0 ic st inst = st := by
  rw [strat2Inst_eq, h]

theorem strat4Inst_textbox_none (g : PageGeom) (p : Nat)
    (ws : List (List Char)) (w : List Char) (st : HState) (inst : Rect)
    (h : g.textbox (nearbyRect inst) = none) :
    strat4Inst g p ws w st inst = st := by
  rw [strat4Inst_eq, h]

/-- Folding over a candidate list in which one step is the identity equals
folding over the list with that candidate removed. -/
theorem foldl_skip_mid {τ β : Type} (f : τ → β → τ) (l1 l2 : List β)
    (bad : β) (hb : ∀ st, f st bad = st) (st : τ) :
    (l1 ++ bad :: l2).foldl f st = (l1 ++ l2).foldl f st := by
  rw [List.foldl_append, List.foldl_append, List.foldl_cons, hb]

/-- A keyword whose normalization is empty is skipped by the highlight run. -/
theorem processItem_empty_norm (sim : List Char → List Char → ℚ)
    (g : PageGeom) (p : Nat) (st : HState) (k : List Char)
    (h : normTxt k = []) : processItem sim g p st k = st := by
  rw [processItem_eq, h]
  rfl

/-- Exactly which line boxes strategy 3 emits. -/
theorem mem_strat3Lines (bs : List Block) (ic : List Char)
    (ws : List (List Char)) (r : Rect) :
    r ∈ strat3Lines bs ic ws ↔
      ∃ b ∈ bs, ∃ ls, b.linesOpt = some ls ∧
        containsSub ic (normTxt (blockConcat ls)) = true ∧
        ∃ l ∈ ls,
          ws.any (fun w => containsSub w (normTxt (lineConcat l))) = true ∧
          r = l.bbox := by
  unfold strat3Lines
  rw [List.mem_flatten]
  constructor
  · rintro ⟨L, hL, hr⟩
    rw [List.mem_map] at hL
    obtain ⟨b, hb, hbe⟩ := hL
    subst hbe
    cases hlo : b.linesOpt with
    | none => simp [hlo] at hr
    | some ls =>
      simp only [hlo] at hr
      by_cases hcon : containsSub ic (normTxt (blockConcat ls)) = true
      · rw [if_pos hcon, List.mem_filterMap] at hr
        obtain ⟨l, hl, hfm⟩ := hr
        by_cases hany :
            ws.any (fun w => containsSub w (normTxt (lineConcat l))) = true
        · rw [if_pos hany] at hfm
          injection hfm with hfm
          exact ⟨b, hb, ls, hlo, hcon, l, hl, hany, hfm.symm⟩
        · rw [if_neg hany] at hfm
          cases hfm
      · rw [if_neg hcon] at hr
        cases hr
  · rintro ⟨b, hb, ls, hlo, hcon, l, hl, hany, hbbox⟩
    subst hbbox
    refine ⟨_, List.mem_map_of_mem _ hb, ?_⟩
    simp only [hlo, if_pos hcon, List.mem_filterMap]
    exact ⟨l, hl, by rw [if_pos hany]⟩

/-! ### The claims -/

/-- C1: for every keyword `k` and page text `T`, if the normalized form of
`k` (whitespace collapsed, trimmed, case-folded) is a substring of the
normalized form of `T`, the search phase reports the keyword as found. -/
theorem C1_found_of_normalized_substring (doc items : List (List Char))
    (k T : List Char) (hk : k ∈ items) (hT : T ∈ doc)
    (hc : containsSub (normTxt k) (normTxt T) = true) :
    foundOf (searchResults doc items) k = true :=
  found_of_contains items k T hk hc doc 1 (initResults items) hT

/-- C1 witness: the keyword "gating" on a page containing it. -/
theorem C1_witness :
    kwGating ∈ [ kwGating ] ∧ pgGating ∈ [ pgGating ] ∧
    containsSub (normTxt kwGating) (normTxt pgGating) = true ∧
    foundOf (searchResults [ pgGating ] [ kwGating ]) kwGating = true :=
  ⟨by decide, by decide, by decide,
   C1_found_of_normalized_substring [ pgGating ] [ kwGating ] kwGating
     pgGating (by decide) (by decide) (by decide)⟩

/-- C2 counterexample: with the keyword list ["a", "a"] (a duplicated
keyword) and the one-page document ["a a"], the reported count is 4, not
the per-page substring-count sum 2: the duplicated dictionary entry is
updated once per occurrence of the keyword in the input list. -/
theorem C2_counterexample :
    countOf (searchResults [ pgA2 ] [ kwA, kwA ]) kwA ≠
      (([ pgA2 ]).map (fun T => countPy (normTxt kwA) (normTxt T))).sum := by
  decide

/-- C2 (amended): each processing of keyword `k` on a page adds exactly the
number of non-overlapping occurrences of `normalize(k)` in the normalized
page text, and the final total equals that per-page sum multiplied by the
keyword's number of occurrences in the input list (so it equals the plain
sum whenever the input list has no duplicate). -/
theorem C2_count_semantics (doc items : List (List Char)) (k : List Char) :
    (∀ (T : List Char) (n : Nat) (d : Dict),
      countOf (pageUpdate T n d k) k =
        countOf d k + countPy (normTxt k) (normTxt T)) ∧
    countOf (searchResults doc items) k =
      items.count k *
        (doc.map (fun T => countPy (normTxt k) (normTxt T))).sum := by
  constructor
  · intro T n d
    rw [countOf_pageUpdate, if_pos rfl]
  · exact countOf_searchResults doc items k

/-- C3 counterexample: with the duplicated keyword list ["a", "a"] on the
one-page document ["a"], every keyword of the input list is found, yet the
match percentage is 50, not 100 (the numerator counts distinct dictionary
entries, the denominator counts list entries). -/
theorem C3_counterexample :
    (∀ k ∈ ([ kwA, kwA ] : List (List Char)),
      foundOf (searchResults [ pgA ] [ kwA, kwA ]) k = true) ∧
    matchPct [ pgA ] [ kwA, kwA ] ≠ 100 := by
  constructor
  · decide
  · have h1 : (searchResults [ pgA ] [ kwA, kwA ]).countP
        (fun e => e.2.found) = 1 := by decide
    have h2 : matchPct [ pgA ] [ kwA, kwA ] =
        ((searchResults [ pgA ] [ kwA, kwA ]).countP (fun e => e.2.found) : ℚ) /
          (([ kwA, kwA ] : List (List Char)).length : ℚ) * 100 := rfl
    rw [h2, h1]
    norm_num

/-- C3 (amended): the match percentage always lies in [0, 100] and is 0 for
an empty keyword list; it equals 100 exactly when the keyword list is
nonempty, has no duplicates, and every keyword is found at least once. -/
theorem C3_match_percentage (doc items : List (List Char)) :
    0 ≤ matchPct doc items ∧ matchPct doc items ≤ 100 ∧
    (items = [] → matchPct doc items = 0) ∧
    (matchPct doc items = 100 ↔
      items ≠ [] ∧ items.Nodup ∧
        ∀ k ∈ items, foundOf (searchResults doc items) k = true) := by
  have hkeys : keysOf (searchResults doc items) = dedupFirst items :=
    keysOf_searchResults doc items
  have hpct : matchPct doc items =
      if items.length > 0 then
        ((searchResults doc items).countP (fun e => e.2.found) : ℚ) /
          (items.length : ℚ) * 100
      else 0 := rfl
  set d := searchResults doc items with hdd
  set m := d.countP (fun e => e.2.found) with hmm
  set t := items.length with htt
  have hmle : m ≤ d.length := List.countP_le_length _
  have hdlen : d.length = (dedupFirst items).length := by
    calc d.length = (keysOf d).length := (List.length_map _ _).symm
      _ = (dedupFirst items).length := by rw [hkeys]
  have hdede : (dedupFirst items).length ≤ t := dedupFirstAux_length_le items []
  have hmt : m ≤ t := by omega
  by_cases hempty : items = []
  · rw [hpct]
    have h0 : ¬ t > 0 := by rw [htt, hempty]; simp
    rw [if_neg h0]
    refine ⟨le_refl 0, by norm_num, fun _ => rfl, ?_⟩
    constructor
    · intro h100
      exact absurd h100 (by norm_num)
    · rintro ⟨hne, -, -⟩
      exact absurd hempty hne
  · have htpos : 0 < t := by
      rw [htt]
      exact List.length_pos.mpr hempty
    obtain ⟨hb0, hb100⟩ := rat_div_bounds hmt htpos
    rw [hpct, if_pos htpos]
    refine ⟨hb0, hb100, fun he => absurd he hempty, ?_⟩
    rw [rat_pct_eq_100_iff m t htpos]
    constructor
    · intro hmeq
      have hlen_eq : (dedupFirst items).length = items.length := by omega
      have hnodup : items.Nodup :=
        (nodup_of_dedupFirstAux_length items [] hlen_eq).1
      have hall : ∀ e ∈ d, (fun e => e.2.found) e = true :=
        List.countP_eq_length.mp (by omega)
      refine ⟨hempty, hnodup, ?_⟩
      intro k hk
      have hkd : k ∈ keysOf d := hkeys ▸ mem_dedupFirst hk
      obtain ⟨v, hv⟩ := exists_getVal_of_mem_keys hkd
      have hvf := hall (k, v) (getVal_mem hv)
      simp only at hvf
      simp [foundOf, hv, hvf]
    · rintro ⟨-, hnodup, hfound⟩
      have hkeys2 : keysOf d = items := by
        rw [hkeys, dedupFirst_of_nodup hnodup]
      have hnd : (keysOf d).Nodup := by rw [hkeys2]; exact hnodup
      have hall : ∀ e ∈ d, (fun e => e.2.found) e = true := by
        intro e he
        obtain ⟨k, v⟩ := e
        have hkk : k ∈ keysOf d := List.mem_map_of_mem Prod.fst he
        have hf := hfound k (hkeys2 ▸ hkk)
        rw [foundOf_eq_of_mem hnd he] at hf
        exact hf
      have hcl : m = d.length := List.countP_eq_length.mpr hall
      have hdt : d.length = t := by
        have h1 : (keysOf d).length = d.length := List.length_map _ _
        rw [hkeys2] at h1
        omega
      omega

/-- C4: within one highlight run no two applied annotations share a
position key (page, x0 and y0 rounded to one decimal), and running the
applier a second time over the same candidate list applies nothing new:
the total equals that of a single run. -/
theorem C4_dedup_invariant (sim : List Char → List Char → ℚ)
    (doc : List PageGeom) (items : List (List Char)) :
    ((highlightPdf sim doc items).annots.map annotKey).Nodup ∧
    ∀ cands : List (Nat × ℚ × Rect),
      (applyAll hEmpty (cands ++ cands)).total =
        (applyAll hEmpty cands).total := by
  constructor
  · have h := hInv_highlightPdf sim doc items
    rw [h.1]
    exact h.2
  · intro cands
    rw [applyAll_append,
      applyAll_stable cands _ (fun c hc => key_mem_applyAll cands hEmpty c hc)]

/-- C5 counterexample: the keyword "image stream" on a page whose text
contains "the image, stream, continued" is NOT reported found:
`clean_text` collapses whitespace and case only, it strips no punctuation,
so the commas defeat the substring match. -/
theorem C5_counterexample :
    ¬ foundOf (searchResults [ pgImageStream ] [ kwImageStream ])
        kwImageStream = true := by
  decide

/-- C5 (amended): for the keyword "image stream" and any single page whose
normalized text does not contain "image stream" literally — in particular
the page "see the image, stream, continued here" — the search phase
reports found = false, because `clean_text` performs no punctuation
stripping and matching is a raw substring test on the whitespace-collapsed,
case-folded text. -/
theorem C5_no_punctuation_tolerance (T : List Char)
    (h : containsSub (normTxt kwImageStream) (normTxt T) = false) :
    foundOf (searchResults [ T ] [ kwImageStream ]) kwImageStream = false := by
  show foundOf
    (pageUpdate T 1 (initResults [ kwImageStream ]) kwImageStream)
    kwImageStream = false
  rw [pageUpdate_not_contains T 1 _ kwImageStream h]
  exact foundOf_init _ _

/-- C5 witness: the amended statement at the scenario's page text. -/
theorem C5_witness :
    containsSub (normTxt kwImageStream) (normTxt pgImageStream) = false ∧
    foundOf (searchResults [ pgImageStream ] [ kwImageStream ])
      kwImageStream = false :=
  ⟨by decide, C5_no_punctuation_tolerance pgImageStream (by decide)⟩

/-- C6 counterexample: for the duplicated input list ["a", "a"] the
returned mapping iterates over the single key "a", which is not the input
list. -/
theorem C6_counterexample :
    keysOf (searchResults [ pgA ] [ kwA, kwA ]) ≠ [ kwA, kwA ] := by
  decide

/-- C6 (amended): the keyword order of the returned mapping equals the
input list with later duplicates removed (first occurrences, in input
order); in particular it equals the input list whenever the input list has
no duplicate keyword. -/
theorem C6_report_keyword_order (doc items : List (List Char)) :
    keysOf (searchResults doc items) = dedupFirst items ∧
    (items.Nodup → keysOf (searchResults doc items) = items) :=
  ⟨keysOf_searchResults doc items,
   fun h => by rw [keysOf_searchResults, dedupFirst_of_nodup h]⟩

/-- C7 counterexample: phrase "alpha beta" with a block of two lines,
"alpha beta" and "beta": the second line's box is emitted (the block text
contains the phrase and the line contains the word "beta") although the
line's own text does not contain the full phrase — so line-level phrase
containment is not what gates emission. -/
theorem C7_counterexample :
    (⟨0, 2, 10, 3⟩ : Rect) ∈ strat3Lines [ blockAB ] icAB wsAB ∧
    containsSub icAB (normTxt (lineConcat lineB)) = false := by
  constructor
  · decide
  · decide

/-- C7 (amended): strategy 3 emits a line's bounding box exactly when the
concatenated span text of the line's enclosing block, once normalized,
contains the full normalized phrase and the line's own text contains at
least one of the phrase's individual words. -/
theorem C7_line_emission (bs : List Block) (ic : List Char)
    (ws : List (List Char)) (r : Rect) :
    r ∈ strat3Lines bs ic ws ↔
      ∃ b ∈ bs, ∃ ls, b.linesOpt = some ls ∧
        containsSub ic (normTxt (blockConcat ls)) = true ∧
        ∃ l ∈ ls,
          ws.any (fun w => containsSub w (normTxt (lineConcat l))) = true ∧
          r = l.bbox :=
  mem_strat3Lines bs ic ws r

/-- C8: a failed text read inside a candidate rectangle (strategy 2's
expanded rectangle, strategy 4's neighbourhood) is never fatal: that
candidate's step is the identity, so the scan of a candidate list
containing the failing candidate equals the scan with it removed — the run
continues over the remaining candidates and still produces its state and
total count. -/
theorem C8_failed_read_drops_only_candidate
    (sim : List Char → List Char → ℚ) (g : PageGeom) (p : Nat)
    (w0 ic w : List Char) (ws : List (List Char)) (st st' : HState)
    (l1 l2 l3 l4 : List Rect) (bad bad' : Rect)
    (h2 : g.textbox (expandRect g w0 ic bad) = none)
    (h4 : g.textbox (nearbyRect bad') = none) :
    (l1 ++ bad :: l2).foldl (strat2Inst sim g p w0 ic) st =
      (l1 ++ l2).foldl (strat2Inst sim g p w0 ic) st ∧
    (l3 ++ bad' :: l4).foldl (strat4Inst g p ws w) st' =
      (l3 ++ l4).foldl (strat4Inst g p ws w) st' := by
  constructor
  · exact foldl_skip_mid _ l1 l2 bad
      (fun st => strat2Inst_textbox_none sim g p w0 ic st bad h2) st
  · exact foldl_skip_mid _ l3 l4 bad'
      (fun st => strat4Inst_textbox_none g p ws w st bad' h4) st'

/-- C8 witness: a page on which every text-box read fails. -/
theorem C8_witness :
    g0.textbox (expandRect g0 [] [] r0) = none ∧
    g0.textbox (nearbyRect r0) = none ∧
    ([] ++ r0 :: []).foldl (strat2Inst sim0 g0 0 [] []) hEmpty =
      ([] ++ []).foldl (strat2Inst sim0 g0 0 [] []) hEmpty ∧
    ([] ++ r0 :: []).foldl (strat4Inst g0 0 [] []) hEmpty =
      ([] ++ []).foldl (strat4Inst g0 0 [] []) hEmpty :=
  ⟨rfl, rfl,
   (C8_failed_read_drops_only_candidate sim0 g0 0 [] [] [] [] hEmpty hEmpty
      [] [] [] [] r0 r0 rfl rfl).1,
   (C8_failed_read_drops_only_candidate sim0 g0 0 [] [] [] [] hEmpty hEmpty
      [] [] [] [] r0 r0 rfl rfl).2⟩

/-- C9: every keyword's list of page numbers is strictly ascending, so
each page number appears at most once. -/
theorem C9_pages_strictly_ascending (doc items : List (List Char))
    (k : List Char) :
    (pagesOf (searchResults doc items) k).Pairwise (· < ·) :=
  pagesOf_searchLoop_pairwise items doc 1 (initResults items)
    (pagesOk_init items 1) k

/-- C10: a keyword whose normalized form is empty is found on every page of
a nonempty document (`found = true`), each page processing adds the length
of the normalized page text plus one to its count (Python's empty-substring
containment and count semantics), and the highlight phase skips the keyword
entirely (its word list is empty). -/
theorem C10_empty_normalized_keyword (items : List (List Char))
    (k : List Char) (hk : k ∈ items) (hnorm : normTxt k = []) :
    (∀ doc : List (List Char), doc ≠ [] →
      foundOf (searchResults doc items) k = true) ∧
    (∀ (T : List Char) (n : Nat) (d : Dict),
      countOf (pageUpdate T n d k) k =
        countOf d k + ((normTxt T).length + 1)) ∧
    (∀ (sim : List Char → List Char → ℚ) (g : PageGeom) (p : Nat)
      (st : HState), processItem sim g p st k = st) := by
  refine ⟨?_, ?_, ?_⟩
  · intro doc hdoc
    cases doc with
    | nil => exact absurd rfl hdoc
    | cons T rest =>
      have hc : containsSub (normTxt k) (normTxt T) = true := by
        rw [hnorm]
        exact containsSub_nil_left _
      exact found_of_contains items k T hk hc (T :: rest) 1
        (initResults items) (List.mem_cons_self _ _)
  · intro T n d
    rw [countOf_pageUpdate, if_pos rfl, hnorm]
    rfl
  · intro sim g p st
    exact processItem_empty_norm sim g p st k hnorm

/-- C10 witness: the all-whitespace keyword " " on the document ["a"]. -/
theorem C10_witness :
    kwSpace ∈ [ kwSpace ] ∧ normTxt kwSpace = [] ∧
    foundOf (searchResults [ pgA ] [ kwSpace ]) kwSpace = true ∧
    countOf (pageUpdate pgA 1 [] kwSpace) kwSpace =
      countOf ([] : Dict) kwSpace + ((normTxt pgA).length + 1) ∧
    processItem sim0 g0 0 hEmpty kwSpace = hEmpty :=
  ⟨by decide, by decide,
   (C10_empty_normalized_keyword [ kwSpace ] kwSpace (by decide)
      (by decide)).1 [ pgA ] (by decide),
   (C10_empty_normalized_keyword [ kwSpace ] kwSpace (by decide)
      (by decide)).2.1 pgA 1 [],
   (C10_empty_normalized_keyword [ kwSpace ] kwSpace (by decide)
      (by decide)).2.2 sim0 g0 0 hEmpty⟩

end PatentAnalyzer
